import Mathlib

/-!
Verification of the in-memory user repository, service layer, async logging
pipeline and int16 arithmetic of the repository under study.

Shallow embedding conventions:
* Go `error` values are modelled as `Option String` (`none` = nil error);
  the spec states errors are opaque values compared by identity/message.
* `time.Time` is modelled as an `Int` timestamp; `time.Now()` becomes an
  explicit `now` argument threaded into the operations that read the clock.
* The Go `map[int]User` is modelled as an association list with
  insert-or-overwrite (`mapInsert`) and first-match lookup (`mapLookup`).
* Methods with a pointer receiver that mutate state return the new state
  explicitly; read-only methods (`GetByID`, `List`, `GetUser`) take the
  state and return no state, so by construction they cannot modify it.
* The goroutine/channel logger is modelled as a small-step transition
  system (`LogStep`) over explicit program states.
-/

/-- `User` record: ID, Name, Email, CreatedAt (from the Go struct `User`). -/
structure User where
  ID : Int
  Name : String
  Email : String
  CreatedAt : Int
deriving DecidableEq, Repr

/-- The Go zero value `User{}`. -/
def emptyUser : User := { ID := 0, Name := "", Email := "", CreatedAt := 0 }

/-- `var ErrUserNotFound = errors.New("user not found")`. -/
def ErrUserNotFound : String := "user not found"

/-- The validation error message produced by `UserService.RegisterUser`. -/
def ErrValidation : String := "name or email cannot be empty"

/-- `context.DeadlineExceeded` error message. -/
def CtxDeadlineExceeded : String := "context deadline exceeded"

/-- First-match lookup in the association list modelling `map[int]User`. -/
def mapLookup : List (Int × User) → Int → Option User
  | [], _ => none
  | (k, v) :: rest, id => if k = id then some v else mapLookup rest id

/-- Insert-or-overwrite in the association list modelling `map[int]User`. -/
def mapInsert : List (Int × User) → Int → User → List (Int × User)
  | [], k, v => [(k, v)]
  | (k', v') :: rest, k, v =>
    if k' = k then (k, v) :: rest else (k', v') :: mapInsert rest k v

/-- State of `InMemoryUserRepo`: the user map and the `nextID` counter. -/
structure InMemoryUserRepo where
  users : List (Int × User)
  nextID : Int
deriving DecidableEq, Repr

/-- `NewInMemoryUserRepo()`: empty map, counter starts at 1. -/
def NewInMemoryUserRepo : InMemoryUserRepo := { users := [], nextID := 1 }

/-- `(r *InMemoryUserRepo) Create(user User) (User, error)`: overwrites the
caller's ID with `r.nextID` and CreatedAt with the current time, stores the
record, increments the counter, and returns the stored copy with nil error. -/
def InMemoryUserRepo.Create (r : InMemoryUserRepo) (user : User) (now : Int) :
    (User × Option String) × InMemoryUserRepo :=
  let stored := { user with ID := r.nextID, CreatedAt := now }
  ((stored, none),
   { users := mapInsert r.users stored.ID stored, nextID := r.nextID + 1 })

/-- `(r *InMemoryUserRepo) GetByID(id int) (User, error)`: returns the stored
record, or the zero User and `ErrUserNotFound` when the key is absent. -/
def InMemoryUserRepo.GetByID (r : InMemoryUserRepo) (id : Int) :
    User × Option String :=
  match mapLookup r.users id with
  | some u => (u, none)
  | none => (emptyUser, some ErrUserNotFound)

/-- `(r *InMemoryUserRepo) List() []User`: snapshot of all stored records. -/
def InMemoryUserRepo.List (r : InMemoryUserRepo) : List User :=
  r.users.map Prod.snd

/-- `(s *UserService) RegisterUser(name, email string) (User, error)`:
rejects an empty name or email with a validation error, otherwise builds a
User with zero ID/CreatedAt and delegates to `Create`. -/
def UserService.RegisterUser (r : InMemoryUserRepo) (name email : String)
    (now : Int) : (User × Option String) × InMemoryUserRepo :=
  if name = "" ∨ email = "" then
    ((emptyUser, some ErrValidation), r)
  else
    r.Create { ID := 0, Name := name, Email := email, CreatedAt := 0 } now

/-- A Go `context.Context` as observed by `GetUser`: `err = some e` means the
context is done (cancelled or past its deadline) and `ctx.Err() = e`. -/
structure Ctx where
  err : Option String
deriving DecidableEq, Repr

/-- `(s *UserService) GetUser(ctx, id) (User, error)`: the `select` polls
`ctx.Done()`; if the context is done it returns `ctx.Err()` without touching
the repository, otherwise it delegates to `GetByID`. -/
def UserService.GetUser (r : InMemoryUserRepo) (ctx : Ctx) (id : Int) :
    User × Option String :=
  match ctx.err with
  | some e => (emptyUser, some e)
  | none => r.GetByID id

/-- Run a sequence of `RegisterUser` calls, collecting each call's result. -/
def runRegisterSeq (inputs : List (String × String × Int))
    (r : InMemoryUserRepo) :
    List (User × Option String) × InMemoryUserRepo :=
  match inputs with
  | [] => ([], r)
  | (name, email, now) :: rest =>
    let step := UserService.RegisterUser r name email now
    let tailRun := runRegisterSeq rest step.2
    (step.1 :: tailRun.1, tailRun.2)

/-- Run a sequence of `Create` calls, collecting each call's result. -/
def runCreateSeq (inputs : List (User × Int)) (r : InMemoryUserRepo) :
    List (User × Option String) × InMemoryUserRepo :=
  match inputs with
  | [] => ([], r)
  | (user, now) :: rest =>
    let step := r.Create user now
    let tailRun := runCreateSeq rest step.2
    (step.1 :: tailRun.1, tailRun.2)

/-- Well-formedness of reachable repository states: every stored key is below
the counter and every stored record carries its own key as ID. -/
def InMemoryUserRepo.WF (r : InMemoryUserRepo) : Prop :=
  ∀ p ∈ r.users, p.1 < r.nextID ∧ p.2.ID = p.1

instance (r : InMemoryUserRepo) : Decidable r.WF := by
  unfold InMemoryUserRepo.WF
  infer_instance

/-- Looking up the key just inserted returns the inserted value. -/
theorem mapLookup_insert_self (l : List (Int × User)) (k : Int) (v : User) :
    mapLookup (mapInsert l k v) k = some v := by
  induction l with
  | nil => simp [mapInsert, mapLookup]
  | cons p rest ih =>
    by_cases h : p.1 = k
    · simp [mapInsert, mapLookup, h]
    · simp [mapInsert, mapLookup, h, ih]

/-- Inserting an absent key appends the binding at the end. -/
theorem mapInsert_of_not_mem (l : List (Int × User)) (k : Int) (v : User)
    (h : ∀ p ∈ l, p.1 ≠ k) : mapInsert l k v = l ++ [(k, v)] := by
  induction l with
  | nil => simp [mapInsert]
  | cons p rest ih =>
    have hp : p.1 ≠ k := h p (List.mem_cons_self p rest)
    simp only [mapInsert, if_neg hp, List.cons_append, List.cons.injEq, true_and]
    exact ih fun q hq => h q (List.mem_cons_of_mem p hq)

/-- A successful lookup survives appending more bindings. -/
theorem mapLookup_append_of_some (l l2 : List (Int × User)) (id : Int)
    (u : User) (h : mapLookup l id = some u) :
    mapLookup (l ++ l2) id = some u := by
  induction l with
  | nil => simp [mapLookup] at h
  | cons p rest ih =>
    by_cases hp : p.1 = id
    · simpa [mapLookup, hp] using h
    · simp only [mapLookup, if_neg hp] at h
      simpa [mapLookup, hp] using ih h

/-- Lookup fails exactly when no binding carries the key. -/
theorem mapLookup_eq_none_iff (l : List (Int × User)) (id : Int) :
    mapLookup l id = none ↔ ∀ p ∈ l, p.1 ≠ id := by
  induction l with
  | nil => simp [mapLookup]
  | cons p rest ih =>
    by_cases hp : p.1 = id
    · simp [mapLookup, hp]
    · simp [mapLookup, hp, ih]

/-- `Create` on a well-formed state appends a fresh binding at the end. -/
theorem create_users_eq (r : InMemoryUserRepo) (user : User) (now : Int)
    (hwf : r.WF) :
    ((r.Create user now).2).users =
      r.users ++ [(r.nextID, { user with ID := r.nextID, CreatedAt := now })] := by
  have habs : ∀ p ∈ r.users, p.1 ≠ r.nextID := by
    intro p hp
    exact ne_of_lt (hwf p hp).1
  simpa [InMemoryUserRepo.Create] using
    mapInsert_of_not_mem r.users r.nextID _ habs

/-- `Create` preserves well-formedness. -/
theorem create_WF (r : InMemoryUserRepo) (user : User) (now : Int)
    (hwf : r.WF) : ((r.Create user now).2).WF := by
  intro p hp
  rw [create_users_eq r user now hwf] at hp
  rcases List.mem_append.mp hp with h | h
  · have := hwf p h
    constructor
    · calc p.1 < r.nextID := this.1
        _ < r.nextID + 1 := by omega
    · exact this.2
  · simp only [List.mem_singleton] at h
    subst h
    exact ⟨by simp [InMemoryUserRepo.Create], rfl⟩

/-- `RegisterUser` preserves well-formedness. -/
theorem registerUser_WF (r : InMemoryUserRepo) (name email : String)
    (now : Int) (hwf : r.WF) :
    ((UserService.RegisterUser r name email now).2).WF := by
  unfold UserService.RegisterUser
  by_cases h : name = "" ∨ email = ""
  · simpa [h] using hwf
  · simpa [h] using create_WF r _ now hwf

/-- C6: `Create` always succeeds — the error component of the returned pair
is the nil error, for every input record and every repository state. -/
theorem create_always_succeeds (r : InMemoryUserRepo) (user : User)
    (now : Int) : ((r.Create user now).1).2 = none := rfl

/-- C9: `Create` ignores the caller-supplied ID and CreatedAt: the returned
record carries the counter value as ID and the current time as CreatedAt
(whatever the caller passed in), and exactly that record is stored under the
counter key. -/
theorem create_ignores_caller_fields (r : InMemoryUserRepo) (user : User)
    (now : Int) :
    ((r.Create user now).1).1.ID = r.nextID ∧
    ((r.Create user now).1).1.CreatedAt = now ∧
    mapLookup ((r.Create user now).2).users r.nextID =
      some ((r.Create user now).1).1 := by
  refine ⟨rfl, rfl, ?_⟩
  simpa [InMemoryUserRepo.Create] using
    mapLookup_insert_self r.users r.nextID _

/-- C2: `RegisterUser` with an empty name or email returns the validation
error and the repository state unchanged (so in particular the stored-user
count and the counter are unchanged); with both arguments non-empty it does
not return the validation error. -/
theorem registerUser_validation (r : InMemoryUserRepo) (name email : String)
    (now : Int) :
    ((name = "" ∨ email = "") →
      UserService.RegisterUser r name email now =
        ((emptyUser, some ErrValidation), r)) ∧
    (name ≠ "" → email ≠ "" →
      ((UserService.RegisterUser r name email now).1).2 ≠
        some ErrValidation) := by
  constructor
  · intro h
    simp [UserService.RegisterUser, h]
  · intro hn he
    have h : ¬(name = "" ∨ email = "") := by
      intro h
      rcases h with h | h
      · exact hn h
      · exact he h
    simp [UserService.RegisterUser, h, InMemoryUserRepo.Create]

/-- Witness for C2 at concrete inputs. -/
theorem registerUser_validation_witness :
    UserService.RegisterUser NewInMemoryUserRepo "" "x@example.com" 0 =
      ((emptyUser, some ErrValidation), NewInMemoryUserRepo) ∧
    ((UserService.RegisterUser NewInMemoryUserRepo "x" "y@example.com" 0).1).2 ≠
      some ErrValidation :=
  ⟨(registerUser_validation NewInMemoryUserRepo "" "x@example.com" 0).1
      (Or.inl rfl),
   (registerUser_validation NewInMemoryUserRepo "x" "y@example.com" 0).2
      (by decide) (by decide)⟩

/-- C5: when the context is already done, `GetUser` returns the zero User
together with exactly the context's own error, and its result does not depend
on the repository state at all (no repository interaction; the embedding is
read-only, so the state is unchanged by construction); when the context is
not done, `GetUser` is exactly `GetByID`. -/
theorem getUser_ctx (r r2 : InMemoryUserRepo) (ctx : Ctx) (id : Int)
    (e : String) :
    (ctx.err = some e →
      UserService.GetUser r ctx id = (emptyUser, some e) ∧
      UserService.GetUser r ctx id = UserService.GetUser r2 ctx id) ∧
    (ctx.err = none →
      UserService.GetUser r ctx id = r.GetByID id) := by
  constructor
  · intro h
    constructor
    · simp [UserService.GetUser, h]
    · simp [UserService.GetUser, h]
  · intro h
    simp [UserService.GetUser, h]

/-- Witness for C5: a context already past its deadline. -/
theorem getUser_ctx_witness :
    UserService.GetUser NewInMemoryUserRepo ⟨some CtxDeadlineExceeded⟩ 1 =
      (emptyUser, some CtxDeadlineExceeded) ∧
    UserService.GetUser NewInMemoryUserRepo ⟨none⟩ 1 =
      NewInMemoryUserRepo.GetByID 1 :=
  ⟨((getUser_ctx NewInMemoryUserRepo NewInMemoryUserRepo
      ⟨some CtxDeadlineExceeded⟩ 1 CtxDeadlineExceeded).1 rfl).1,
   (getUser_ctx NewInMemoryUserRepo NewInMemoryUserRepo
      ⟨none⟩ 1 CtxDeadlineExceeded).2 rfl⟩

/-- C3: on a well-formed state, `GetByID id` fails with `ErrUserNotFound`
exactly when no stored record has identifier `id`; and `GetByID` applied to
the ID of the record a `Create` just returned yields that very record with
nil error (round-trip). -/
theorem getByID_notFound_iff_and_roundtrip (r : InMemoryUserRepo) (id : Int)
    (user : User) (now : Int) (hwf : r.WF) :
    (((r.GetByID id).2 = some ErrUserNotFound) ↔ ∀ u ∈ r.List, u.ID ≠ id) ∧
    ((r.Create user now).2).GetByID ((r.Create user now).1).1.ID =
      (((r.Create user now).1).1, none) := by
  constructor
  · constructor
    · intro h
      intro u hu
      rcases List.mem_map.mp hu with ⟨p, hp, hpu⟩
      rw [← hpu, (hwf p hp).2]
      intro hk
      have hlook : mapLookup r.users id ≠ none := by
        intro hnone
        exact ((mapLookup_eq_none_iff r.users id).mp hnone) p hp hk
      rcases Option.ne_none_iff_exists.mp hlook with ⟨v, hv⟩
      simp [InMemoryUserRepo.GetByID, ← hv] at h
    · intro h
      have hnone : mapLookup r.users id = none := by
        rw [mapLookup_eq_none_iff]
        intro p hp
        have : p.2.ID ≠ id :=
          h p.2 (List.mem_map.mpr ⟨p, hp, rfl⟩)
        rw [← (hwf p hp).2]
        exact this
      simp [InMemoryUserRepo.GetByID, hnone]
  · have hid : ((r.Create user now).1).1.ID = r.nextID := rfl
    rw [hid]
    unfold InMemoryUserRepo.GetByID
    rw [show ((r.Create user now).2).users =
          mapInsert r.users r.nextID ((r.Create user now).1).1 from rfl]
    rw [mapLookup_insert_self]

/-- Witness for C3 at concrete inputs: a repository holding one user. -/
theorem getByID_roundtrip_witness :
    (((NewInMemoryUserRepo.Create
        { ID := 0, Name := "Gaurav", Email := "gaurav@example.com",
          CreatedAt := 0 } 5).2).GetByID 1 =
      ({ ID := 1, Name := "Gaurav", Email := "gaurav@example.com",
         CreatedAt := 5 }, none)) ∧
    ((NewInMemoryUserRepo.GetByID 7).2 = some ErrUserNotFound ↔
      ∀ u ∈ NewInMemoryUserRepo.List, u.ID ≠ 7) :=
  ⟨(getByID_notFound_iff_and_roundtrip NewInMemoryUserRepo 7
      { ID := 0, Name := "Gaurav", Email := "gaurav@example.com",
        CreatedAt := 0 } 5 (by decide)).2,
   (getByID_notFound_iff_and_roundtrip NewInMemoryUserRepo 7
      { ID := 0, Name := "Gaurav", Email := "gaurav@example.com",
        CreatedAt := 0 } 5 (by decide)).1⟩

/-- C7: once stored, a record is immutable. The mutating operations
(`Create`, `RegisterUser`) leave every already-stored record — in particular
its ID and CreatedAt — exactly as it was; `GetByID`, `List` and `GetUser`
take the state and return no state, so in this embedding they cannot modify
any record by construction. -/
theorem stored_records_immutable (r : InMemoryUserRepo) (id : Int)
    (u v : User) (t : Int) (nm em : String) (hwf : r.WF)
    (h : mapLookup r.users id = some u) :
    mapLookup ((r.Create v t).2).users id = some u ∧
    mapLookup ((UserService.RegisterUser r nm em t).2).users id = some u := by
  have hc : mapLookup ((r.Create v t).2).users id = some u := by
    rw [create_users_eq r v t hwf]
    exact mapLookup_append_of_some r.users _ id u h
  refine ⟨hc, ?_⟩
  unfold UserService.RegisterUser
  by_cases hcond : nm = "" ∨ em = ""
  · simpa [hcond] using h
  · simpa [hcond] using
      (by
        rw [create_users_eq r _ t hwf]
        exact mapLookup_append_of_some r.users _ id u h :
        mapLookup ((r.Create
          { ID := 0, Name := nm, Email := em, CreatedAt := 0 } t).2).users id =
          some u)

/-- Witness for C7: a repository holding user 1; a later `Create` and a later
`RegisterUser` both leave the stored record untouched. -/
theorem stored_records_immutable_witness :
    mapLookup ((((NewInMemoryUserRepo.Create emptyUser 5).2).Create
        emptyUser 9).2).users 1 =
      some { ID := 1, Name := "", Email := "", CreatedAt := 5 } ∧
    mapLookup ((UserService.RegisterUser
        (NewInMemoryUserRepo.Create emptyUser 5).2 "a" "b" 9).2).users 1 =
      some { ID := 1, Name := "", Email := "", CreatedAt := 5 } :=
  stored_records_immutable (NewInMemoryUserRepo.Create emptyUser 5).2 1
    { ID := 1, Name := "", Email := "", CreatedAt := 5 } emptyUser 9 "a" "b"
    (by decide) (by decide)

/-- The list of identifiers `start, start+1, ..., start+n-1`. -/
def idsFrom (start : Int) : Nat → List Int
  | 0 => []
  | n + 1 => start :: idsFrom (start + 1) n

theorem idsFrom_mem (start : Int) (n : Nat) :
    ∀ x ∈ idsFrom start n, start ≤ x ∧ x < start + n := by
  induction n generalizing start with
  | zero => simp [idsFrom]
  | succ n ih =>
    intro x hx
    simp only [idsFrom, List.mem_cons] at hx
    rcases hx with hx | hx
    · subst hx
      push_cast
      omega
    · have := ih (start + 1) x hx
      push_cast
      push_cast at this
      omega

theorem idsFrom_pairwise (start : Int) (n : Nat) :
    (idsFrom start n).Pairwise (· < ·) := by
  induction n generalizing start with
  | zero => simp [idsFrom]
  | succ n ih =>
    refine List.Pairwise.cons ?_ (ih (start + 1))
    intro x hx
    have := (idsFrom_mem (start + 1) n x hx).1
    omega

theorem idsFrom_length (start : Int) (n : Nat) :
    (idsFrom start n).length = n := by
  induction n generalizing start with
  | zero => rfl
  | succ n ih => simp [idsFrom, ih]

/-- A sequence of valid `RegisterUser` calls assigns consecutive identifiers
starting at the current counter, and every call succeeds. -/
theorem runRegisterSeq_spec (inputs : List (String × String × Int))
    (r : InMemoryUserRepo)
    (h : ∀ x ∈ inputs, x.1 ≠ "" ∧ x.2.1 ≠ "") :
    ((runRegisterSeq inputs r).1.map fun p => p.1.ID) =
      idsFrom r.nextID inputs.length ∧
    ∀ p ∈ (runRegisterSeq inputs r).1, p.2 = none := by
  induction inputs generalizing r with
  | nil => simp [runRegisterSeq, idsFrom]
  | cons x rest ih =>
    obtain ⟨name, email, now⟩ := x
    have hx := h (name, email, now) (List.mem_cons_self _ _)
    have hcond : ¬(name = "" ∨ email = "") := by
      intro hc
      rcases hc with hc | hc
      · exact hx.1 hc
      · exact hx.2 hc
    have hrest : ∀ y ∈ rest, y.1 ≠ "" ∧ y.2.1 ≠ "" :=
      fun y hy => h y (List.mem_cons_of_mem _ hy)
    have hreg : UserService.RegisterUser r name email now =
        r.Create { ID := 0, Name := name, Email := email, CreatedAt := 0 }
          now := by
      simp [UserService.RegisterUser, hcond]
    have ihs := ih ((UserService.RegisterUser r name email now).2) hrest
    constructor
    · simp only [runRegisterSeq, List.map_cons, List.length_cons]
      rw [ihs.1, hreg]
      simp [InMemoryUserRepo.Create, idsFrom]
    · intro p hp
      simp only [runRegisterSeq, List.mem_cons] at hp
      rcases hp with hp | hp
      · rw [hp, hreg]
        rfl
      · exact ihs.2 p hp

/-- C1: in a sequence of `RegisterUser` calls with non-empty name and email
on a fresh repository, every call succeeds (nil error), the assigned
identifiers are strictly increasing in call order (hence each is unique and
strictly greater than every previously assigned one), and the first assigned
identifier is 1. -/
theorem registerSeq_ids_unique_increasing
    (inputs : List (String × String × Int))
    (h : ∀ x ∈ inputs, x.1 ≠ "" ∧ x.2.1 ≠ "") :
    (∀ p ∈ (runRegisterSeq inputs NewInMemoryUserRepo).1, p.2 = none) ∧
    ((runRegisterSeq inputs NewInMemoryUserRepo).1.map
      fun p => p.1.ID).Pairwise (· < ·) ∧
    (inputs ≠ [] →
      ((runRegisterSeq inputs NewInMemoryUserRepo).1.map
        fun p => p.1.ID).head? = some 1) := by
  have hs := runRegisterSeq_spec inputs NewInMemoryUserRepo h
  refine ⟨hs.2, ?_, ?_⟩
  · rw [hs.1]
    exact idsFrom_pairwise 1 inputs.length
  · intro hne
    rw [hs.1]
    match inputs, hne with
    | y :: ys, _ => rfl

/-- Witness for C1: the two registrations of the driver routine. -/
theorem registerSeq_ids_witness :
    (∀ p ∈ (runRegisterSeq
        [("Gaurav", "gaurav@example.com", 3), ("Amit", "amit@example.com", 4)]
        NewInMemoryUserRepo).1, p.2 = none) ∧
    ((runRegisterSeq
        [("Gaurav", "gaurav@example.com", 3), ("Amit", "amit@example.com", 4)]
        NewInMemoryUserRepo).1.map fun p => p.1.ID).Pairwise (· < ·) ∧
    ((runRegisterSeq
        [("Gaurav", "gaurav@example.com", 3), ("Amit", "amit@example.com", 4)]
        NewInMemoryUserRepo).1.map fun p => p.1.ID).head? = some 1 :=
  have base := registerSeq_ids_unique_increasing
    [("Gaurav", "gaurav@example.com", 3), ("Amit", "amit@example.com", 4)]
    (by decide)
  ⟨base.1, base.2.1, base.2.2 (by decide)⟩

/-- The fresh repository is well-formed. -/
theorem newRepo_WF : NewInMemoryUserRepo.WF := by
  intro p hp
  simp [NewInMemoryUserRepo] at hp

/-- A sequence of `Create` calls on a well-formed state appends consecutive
keys starting at the counter, preserves well-formedness, and advances the
counter by the number of calls. -/
theorem runCreateSeq_keys (inputs : List (User × Int)) (r : InMemoryUserRepo)
    (hwf : r.WF) :
    ((runCreateSeq inputs r).2).users.map Prod.fst =
      r.users.map Prod.fst ++ idsFrom r.nextID inputs.length ∧
    ((runCreateSeq inputs r).2).WF := by
  induction inputs generalizing r with
  | nil => simp [runCreateSeq, idsFrom, hwf]
  | cons x rest ih =>
    obtain ⟨user, now⟩ := x
    have hstep := create_users_eq r user now hwf
    have hwf2 := create_WF r user now hwf
    have hnext : ((r.Create user now).2).nextID = r.nextID + 1 := rfl
    have ihs := ih ((r.Create user now).2) hwf2
    constructor
    · simp only [runCreateSeq]
      rw [ihs.1, hstep, hnext]
      simp [idsFrom, List.map_append]
    · simp only [runCreateSeq]
      exact ihs.2

/-- On a well-formed state, the listed records' IDs are exactly the keys. -/
theorem list_ids_eq_keys (r : InMemoryUserRepo) (hwf : r.WF) :
    r.List.map User.ID = r.users.map Prod.fst := by
  unfold InMemoryUserRepo.List
  rw [List.map_map]
  exact List.map_congr_left fun p hp => (hwf p hp).2

/-- C4: after N `Create` calls on a fresh repository (each of which
succeeds), `List` returns exactly N records whose identifiers are pairwise
distinct and all lie in the range [1, N]. -/
theorem list_after_creates (inputs : List (User × Int)) :
    (((runCreateSeq inputs NewInMemoryUserRepo).2).List).length =
      inputs.length ∧
    ((((runCreateSeq inputs NewInMemoryUserRepo).2).List).map
      User.ID).Pairwise (· ≠ ·) ∧
    ∀ u ∈ ((runCreateSeq inputs NewInMemoryUserRepo).2).List,
      1 ≤ u.ID ∧ u.ID ≤ (inputs.length : Int) := by
  have hk := runCreateSeq_keys inputs NewInMemoryUserRepo newRepo_WF
  have hkeys : ((runCreateSeq inputs NewInMemoryUserRepo).2).users.map
      Prod.fst = idsFrom 1 inputs.length := by
    rw [hk.1]
    simp [NewInMemoryUserRepo]
  have hids : (((runCreateSeq inputs NewInMemoryUserRepo).2).List).map
      User.ID = idsFrom 1 inputs.length := by
    rw [list_ids_eq_keys _ hk.2, hkeys]
  refine ⟨?_, ?_, ?_⟩
  · have := congrArg List.length hids
    simpa [idsFrom_length] using this
  · rw [hids]
    exact (idsFrom_pairwise 1 inputs.length).imp ne_of_lt
  · intro u hu
    have hmem : u.ID ∈ idsFrom 1 inputs.length := by
      rw [← hids]
      exact List.mem_map_of_mem User.ID hu
    have := idsFrom_mem 1 inputs.length u.ID hmem
    omega

/-- State of the logging pipeline: the producer loop of `main`, the
unbuffered `logChannel`, the `asyncLogger` goroutine, and the WaitGroup.
`toSend` are the messages the producer has not yet sent, `slot` is the
channel's rendezvous cell, `printed` is the output of `log.Println` in send
order, `consumerDone` records that the logger's range loop has ended and its
deferred `wg.Done()` ran, and `waitReturned` records that `wg.Wait()` in
`main` has returned. -/
structure LogSys where
  toSend : List String
  slot : Option String
  closed : Bool
  printed : List String
  consumerDone : Bool
  wgCount : Nat
  waitReturned : Bool
deriving DecidableEq, Repr

/-- Initial state: all messages pending, channel open and empty, nothing
printed, `wg.Add(1)` done. -/
def logInit (msgs : List String) : LogSys :=
  { toSend := msgs, slot := none, closed := false, printed := [],
    consumerDone := false, wgCount := 1, waitReturned := false }

/-- Small-step semantics of the pipeline. `send` is the producer's channel
send (only while the channel is open and the previous handoff finished),
`recv` is the logger receiving and printing one message, `close` is
`close(logChannel)` after the last send completed, `finish` is the logger's
range loop ending on the closed drained channel followed by the deferred
`wg.Done()`, and `wait` is `wg.Wait()` returning once the counter is zero. -/
inductive LogStep : LogSys → LogSys → Prop where
  | send (s : LogSys) (m : String) (rest : List String) :
      s.toSend = m :: rest → s.slot = none → s.closed = false →
      LogStep s { s with toSend := rest, slot := some m }
  | recv (s : LogSys) (m : String) :
      s.slot = some m →
      LogStep s { s with slot := none, printed := s.printed ++ [m] }
  | close (s : LogSys) :
      s.toSend = [] → s.slot = none → s.closed = false →
      LogStep s { s with closed := true }
  | finish (s : LogSys) :
      s.closed = true → s.slot = none → s.consumerDone = false →
      LogStep s { s with consumerDone := true, wgCount := s.wgCount - 1 }
  | wait (s : LogSys) :
      s.wgCount = 0 →
      LogStep s { s with waitReturned := true }

/-- Reachability from the initial state by any interleaving of steps. -/
def LogReach (msgs : List String) (s : LogSys) : Prop :=
  Relation.ReflTransGen LogStep (logInit msgs) s

/-- Inductive invariant of the pipeline. -/
def LogInv (msgs : List String) (s : LogSys) : Prop :=
  s.printed ++ s.slot.toList ++ s.toSend = msgs ∧
  (s.closed = true → s.toSend = [] ∧ s.slot = none) ∧
  (s.consumerDone = true → s.closed = true) ∧
  s.wgCount = (if s.consumerDone then 0 else 1) ∧
  (s.waitReturned = true → s.wgCount = 0)

theorem logInv_init (msgs : List String) : LogInv msgs (logInit msgs) := by
  refine ⟨by simp [logInit], ?_, ?_, ?_, ?_⟩ <;> simp [logInit]

theorem logInv_step (msgs : List String) (s s2 : LogSys)
    (hinv : LogInv msgs s) (hstep : LogStep s s2) : LogInv msgs s2 := by
  obtain ⟨h1, h2, h3, h4, h5⟩ := hinv
  cases hstep with
  | send m rest hts hsl hcl =>
    refine ⟨?_, ?_, h3, h4, h5⟩
    · show s.printed ++ (some m).toList ++ rest = msgs
      rw [← h1, hts, hsl]
      simp
    · show s.closed = true → rest = [] ∧ some m = none
      intro hc
      rw [hcl] at hc
      cases hc
  | recv m hsl =>
    refine ⟨?_, ?_, h3, h4, h5⟩
    · show (s.printed ++ [m]) ++ (none : Option String).toList ++ s.toSend =
        msgs
      rw [← h1, hsl]
      simp
    · show s.closed = true → s.toSend = [] ∧ (none : Option String) = none
      intro hc
      exact ⟨(h2 hc).1, rfl⟩
  | close hts hsl hcl =>
    exact ⟨h1, fun _ => ⟨hts, hsl⟩, fun _ => rfl, h4, h5⟩
  | finish hcl hsl hcd =>
    refine ⟨h1, h2, fun _ => hcl, ?_, ?_⟩
    · show s.wgCount - 1 = if true = true then 0 else 1
      rw [h4, hcd]
      simp
    · intro hw
      show s.wgCount - 1 = 0
      have := h5 hw
      omega
  | wait hwg =>
    exact ⟨h1, h2, h3, h4, fun _ => hwg⟩

theorem logInv_reach (msgs : List String) (s : LogSys)
    (h : LogReach msgs s) : LogInv msgs s := by
  induction h with
  | refl => exact logInv_init msgs
  | tail _ hstep ih => exact logInv_step msgs _ _ ih hstep

/-- C8: in every reachable state of the pipeline the printed output is a
prefix of the send sequence (strict FIFO: messages are printed exactly in
send order), and once `wg.Wait()` has returned every sent message has been
printed — no message is lost at shutdown. -/
theorem logger_fifo_and_complete (msgs : List String) (s : LogSys)
    (h : LogReach msgs s) :
    (∃ rest, s.printed ++ rest = msgs) ∧
    (s.waitReturned = true → s.printed = msgs) := by
  obtain ⟨h1, h2, h3, h4, h5⟩ := logInv_reach msgs s h
  constructor
  · exact ⟨s.slot.toList ++ s.toSend, by rw [← List.append_assoc, h1]⟩
  · intro hw
    have hwg := h5 hw
    have hcd : s.consumerDone = true := by
      by_cases hc : s.consumerDone = true
      · exact hc
      · rw [if_neg hc] at h4
        omega
    obtain ⟨hts, hsl⟩ := h2 (h3 hcd)
    rw [← h1, hts, hsl]
    simp

/-- Final pipeline state of the "a", "b", "c" scenario. -/
def logFinal : LogSys :=
  { toSend := [], slot := none, closed := true, printed := ["a", "b", "c"],
    consumerDone := true, wgCount := 0, waitReturned := true }

/-- Witness for C8: a complete run sending "a", "b", "c", closing the
channel and waiting; the wait has returned and the output is exactly
["a", "b", "c"] in send order. -/
theorem logger_fifo_witness :
    LogReach ["a", "b", "c"] logFinal ∧
    logFinal.printed = ["a", "b", "c"] := by
  have hreach : LogReach ["a", "b", "c"] logFinal := by
    unfold LogReach
    refine Relation.ReflTransGen.head
      (LogStep.send (logInit ["a", "b", "c"]) "a" ["b", "c"] rfl rfl rfl) ?_
    refine Relation.ReflTransGen.head (LogStep.recv _ "a" rfl) ?_
    refine Relation.ReflTransGen.head
      (LogStep.send _ "b" ["c"] rfl rfl rfl) ?_
    refine Relation.ReflTransGen.head (LogStep.recv _ "b" rfl) ?_
    refine Relation.ReflTransGen.head (LogStep.send _ "c" [] rfl rfl rfl) ?_
    refine Relation.ReflTransGen.head (LogStep.recv _ "c" rfl) ?_
    refine Relation.ReflTransGen.head (LogStep.close _ rfl rfl rfl) ?_
    refine Relation.ReflTransGen.head (LogStep.finish _ rfl rfl rfl) ?_
    refine Relation.ReflTransGen.head (LogStep.wait _ rfl) ?_
    exact Relation.ReflTransGen.refl
  exact ⟨hreach, (logger_fifo_and_complete ["a", "b", "c"] logFinal hreach).2
    rfl⟩

/-- Two's-complement wrap-around of an integer into the int16 range. -/
def int16Wrap (x : Int) : Int := (x + 32768) % 65536 - 32768

/-- Go `int16` addition (wrapping). -/
def int16Add (a b : Int) : Int := int16Wrap (a + b)

/-- Go `int16` subtraction (wrapping). -/
def int16Sub (a b : Int) : Int := int16Wrap (a - b)

/-- `var Y int16 = 32767` from Basics.go. -/
def Y : Int := 32767

/-- The text printed by `fmt.Println(Y+2, Y-2)`. -/
def basicsPrinted : String :=
  toString (int16Add Y 2) ++ " " ++ toString (int16Sub Y 2)

/-- C10: with `Y int16 = 32767`, `Y+2` wraps around modulo 2^16 in two's
complement to -32767 (not 32769) while `Y-2` evaluates to 32765, so the
program prints "-32767 32765". -/
theorem basics_int16_overflow :
    int16Add Y 2 = -32767 ∧ int16Sub Y 2 = 32765 ∧
    basicsPrinted = "-32767 32765" := by
  refine ⟨by decide, by decide, ?_⟩
  rfl
